import Mathlib

/-!
Verification development for the advancing-front boundary manager
(`src/algorithm/Front.h` of TQMesh).  The C++ class `Front` is shallowly
embedded: machine doubles are idealized as exact rationals, the unbounded
marching loop of `create_sub_vertex_coords` is embedded with explicit fuel
(`none` models non-termination within the given fuel), and the mutable
`std::list` of edges is embedded as a Lean list with the iterator state made
explicit (processed prefix / pending suffix).  Collaborator code that is part
of the repository but not available here (`Vec2.h`, `EdgeList.h`, `Vertex.h`)
is modelled from the spec, as indicated by doc comments.
-/

set_option maxRecDepth 10000

namespace TQMesh

/-- Modelled from the spec: the 2D vector type of `Vec2.h` (not in `src/`),
"2D vector/point type with arithmetic, length, and basic transforms".
Coordinates are idealized as exact rationals. -/
structure Vec2 where
  x : ℚ
  y : ℚ
deriving DecidableEq

instance : Add Vec2 := ⟨fun a b => ⟨a.x + b.x, a.y + b.y⟩⟩

instance : Sub Vec2 := ⟨fun a b => ⟨a.x - b.x, a.y - b.y⟩⟩

instance : Neg Vec2 := ⟨fun a => ⟨-a.x, -a.y⟩⟩

instance : SMul ℚ Vec2 := ⟨fun r a => ⟨r * a.x, r * a.y⟩⟩

/-- Modelled from the spec: the Euclidean length of `Vec2.h` (not in `src/`).
`Rat.sqrt` coincides with the real square root whenever the radicand is a
perfect rational square, which holds on all concrete inputs used below. -/
def Vec2.length (v : Vec2) : ℚ :=
  Rat.sqrt (v.x * v.x + v.y * v.y)

/-- Modelled from the spec: the `Vertex` entity of the external vertex store
("a 2D point with boolean flags is_fixed, on_boundary, on_front").  An `id`
field models C++ object identity; the size-weight attribute (always 1.0 at
the insertions in `Front.h`) is omitted. -/
structure Vertex where
  id : ℕ
  xy : Vec2
  is_fixed : Bool := false
  on_boundary : Bool := false
  on_front : Bool := false
deriving DecidableEq

/-- Modelled from the spec: the `Edge` entity of `EdgeList.h` (not in
`src/`): "a directed segment (v1, v2) with an integer marker".  An `id`
field models C++ object identity; `on_front` records whether the edge object
itself has been marked as part of the front (spec section 3). -/
structure Edge where
  id : ℕ
  v1 : Vertex
  v2 : Vertex
  marker : ℤ
  on_front : Bool := false
deriving DecidableEq

/-- Modelled from the spec: `Edge::length()` of `EdgeList.h` (not in
`src/`). -/
def Edge.length (e : Edge) : ℚ :=
  (e.v2.xy - e.v1.xy).length

/-- Modelled from the spec: `Edge::tangent()` of `EdgeList.h` (not in
`src/`), the "unit direction from v1 to v2". -/
def Edge.tangent (e : Edge) : Vec2 :=
  (1 / e.length) • (e.v2.xy - e.v1.xy)

/-- Translation of `Front::mark_objects` (Front.h lines 188-193): the hook
invoked by the edge container for newly added topology.  It sets `on_front`
on both endpoint vertices; the edge argument is not touched. -/
def mark_objects (v1 v2 : Vertex) (e : Edge) : Vertex × Vertex × Edge :=
  ({ v1 with on_front := true }, { v2 with on_front := true }, e)

/-- Modelled from the spec: `EdgeList::insert_edge` / `EdgeList::add_edge`
(EdgeList.h, not in `src/`): creates the edge and invokes the new-topology
hook `mark_objects` on its endpoints ("a hook invoked for every new
vertex/edge pair added to the front", spec section 6). -/
def insert_edge (eid : ℕ) (v1 v2 : Vertex) (marker : ℤ) : Edge :=
  let e0 : Edge := { id := eid, v1 := v1, v2 := v2, marker := marker }
  let m := mark_objects e0.v1 e0.v2 e0
  { m.2.2 with v1 := m.1, v2 := m.2.1 }

/-- The two statements `e_new.v1().on_boundary(true); e_new.v2().on_boundary(true);`
executed after each insertion in `Front.h` (lines 318-319, 325-326, 62-63). -/
def set_on_boundary (e : Edge) : Edge :=
  { e with v1 := { e.v1 with on_boundary := true },
           v2 := { e.v2 with on_boundary := true } }

/-- Translation of the loop of `Front::create_sub_edges` (Front.h lines
306-326), recursing over the interior coordinates.  `v_end` is `e.v2()`;
fresh vertex and edge ids stand for the objects created by
`vertices.insert` and `insert_edge`.  Returns the created edges and the
created vertices (with their final flag state). -/
def create_sub_edges_loop (marker : ℤ) (v_end : Vertex) :
    Vertex → List Vec2 → ℕ → ℕ → List Edge × List Vertex
  | v_cur, [], _, eid =>
    ([set_on_boundary (insert_edge eid v_cur v_end marker)], [])
  | v_cur, c :: cs, vid, eid =>
    let v_n : Vertex := { id := vid, xy := c, is_fixed := true }
    let e_new := set_on_boundary (insert_edge eid v_cur v_n marker)
    let r := create_sub_edges_loop marker v_end e_new.v2 cs (vid + 1) (eid + 1)
    (e_new :: r.1, e_new.v2 :: r.2)

/-- Translation of `Front::create_sub_edges` (Front.h lines 302-328): one new
vertex per interior point of `xy_new`, one new edge per consecutive pair from
`e.v1()` to `e.v2()`, every edge carrying `e.marker()`. -/
def create_sub_edges (e : Edge) (xy_new : List Vec2) (vid eid : ℕ) :
    List Edge × List Vertex :=
  create_sub_edges_loop e.marker e.v2 e.v1 ((xy_new.drop 1).dropLast) vid eid

/-- The start vertex of the marching, `v_a` (Front.h line 212). -/
def march_start (e : Edge) (dir : Bool) : Vertex :=
  if dir then e.v1 else e.v2

/-- The end vertex of the marching, `v_b` (Front.h line 213). -/
def march_end (e : Edge) (dir : Bool) : Vertex :=
  if dir then e.v2 else e.v1

/-- The marching tangent, `tang` (Front.h line 216). -/
def march_tangent (e : Edge) (dir : Bool) : Vec2 :=
  if dir then e.tangent else -e.tangent

/-- Translation of the predictor-corrector `while (true)` loop of
`Front::create_sub_vertex_coords` (Front.h lines 230-250), with explicit
fuel; `none` models the loop not finishing within the fuel.  The result is
the accumulated point list together with `s_last`. -/
def march (sf : Vec2 → ℚ) (tang a_xy : Vec2) (eLen s_end : ℚ) :
    ℕ → Vec2 → List Vec2 → Option (List Vec2 × ℚ)
  | 0, _, _ => none
  | fuel + 1, xy, acc =>
    let rho := sf xy
    let xy_p := xy + rho • tang
    let rho_p := sf xy_p
    let dxy_c := ((1 : ℚ)/2 * (rho + rho_p)) • tang
    let xy_c := xy + dxy_c
    let l := (xy_c - a_xy).length
    let s := l / eLen
    let acc2 := acc ++ [xy_c]
    if s_end < s then some (acc2, s)
    else march sf tang a_xy eLen s_end fuel xy_c acc2

/-- Translation of the crop weights (Front.h lines 258-270): size-function
values at the interior points with both endpoints assigned weight 0,
normalized by their total. -/
def crop_weights (sf : Vec2 → ℚ) (xs : List Vec2) : List ℚ :=
  let rho_i : List ℚ := 0 :: ((xs.drop 1).dropLast.map sf ++ [0])
  let rho_tot := rho_i.sum
  rho_i.map (fun v => v / rho_tot)

/-- Translation of the crop-redistribution loop (Front.h lines 272-274):
`xy_new[i] += rho_i[i] * d_cr` for `1 <= i <= n - 2` only. -/
def redistribute (ws : List ℚ) (d : Vec2) (n : ℕ) : ℕ → List Vec2 → List Vec2
  | _, [] => []
  | i, p :: ps =>
    (if 1 ≤ i ∧ i + 1 < n then p + (ws.getD i 0) • d else p)
      :: redistribute ws d n (i + 1) ps

/-- Translation of `Front::create_sub_vertex_coords` (Front.h lines 204-293)
up to but not including the final reversal: marching, forcing the last point
to `v_b`, and crop redistribution.  The debug-only monotonicity `ASSERT`
(lines 277-285, compiled out under `NDEBUG`) does not change the value and is
not modelled. -/
def subCoordsCore (fuel : ℕ) (sf : Vec2 → ℚ) (e : Edge) (dir : Bool)
    (rho_1 rho_2 : ℚ) : Option (List Vec2) :=
  let v_a := march_start e dir
  let v_b := march_end e dir
  let tang := march_tangent e dir
  let rho_b := if dir then rho_2 else rho_1
  let s_end := 1 - (1 : ℚ)/2 * rho_b / e.length
  match march sf tang v_a.xy e.length s_end fuel v_a.xy [v_a.xy] with
  | none => none
  | some (pts, s_last) =>
    let pts1 := pts.dropLast ++ [v_b.xy]
    let d_cr := ((1 - s_last) * e.length) • tang
    let ws := crop_weights sf pts1
    some (redistribute ws d_cr pts1.length 0 pts1)

/-- Translation of `Front::create_sub_vertex_coords` (Front.h lines 204-293):
the core pipeline followed by the final reversal `if (!dir) reverse`
(lines 287-289). -/
def create_sub_vertex_coords (fuel : ℕ) (sf : Vec2 → ℚ) (e : Edge)
    (dir : Bool) (rho_1 rho_2 : ℚ) : Option (List Vec2) :=
  match subCoordsCore fuel sf e dir rho_1 rho_2 with
  | none => none
  | some l => some (if dir then l else l.reverse)

/-- The direction flag computed by `Front::refine` (Front.h line 104):
`bool dir = (rho_1 < rho_2)` with `rho_i` sampled at the two endpoints. -/
def refine_dir (sf : Vec2 → ℚ) (e : Edge) : Bool :=
  decide (sf e.v1.xy < sf e.v2.xy)

/-- The sub-vertex coordinates `Front::refine` computes for one edge
(Front.h lines 99-109). -/
def edge_coords (fuel : ℕ) (sf : Vec2 → ℚ) (e : Edge) : Option (List Vec2) :=
  create_sub_vertex_coords fuel sf e (refine_dir sf e)
    (sf e.v1.xy) (sf e.v2.xy)

/-- Whether `Front::refine` subdivides a given edge: its coordinate list
exists and has at least 3 points (Front.h line 114). -/
def subdivB (fuel : ℕ) (sf : Vec2 → ℚ) (e : Edge) : Bool :=
  match edge_coords fuel sf e with
  | none => false
  | some l => !(l.length < 3 : Bool)

/-- The body of the `refine` loop for one edge (Front.h lines 97-120):
`none` on fuel exhaustion, otherwise whether the edge is marked for removal
together with the sub-edges and sub-vertices created for it. -/
def refine_edge_step (fuel : ℕ) (sf : Vec2 → ℚ) (vid eid : ℕ) (e : Edge) :
    Option (Bool × List Edge × List Vertex) :=
  match edge_coords fuel sf e with
  | none => none
  | some xy_new =>
    if xy_new.length < 3 then some (false, [], [])
    else
      let r := create_sub_edges e xy_new vid eid
      some (true, r.1, r.2)

/-- The advancing front: the edge container of the `EdgeList` base together
with the `base_` pointer (Front.h line 333), modelled as the id of the edge
it points to (`none` is `nullptr`).  `nextVid`/`nextEid` model the identity
of the next objects created by the stores. -/
structure Front where
  edges : List Edge
  base : Option ℕ := none
  nextVid : ℕ := 0
  nextEid : ℕ := 0
deriving DecidableEq

/-- The iteration state of the `refine` loop over the `std::list` of edges:
the edge list as built so far behind the iterator (new sub-edges are
inserted at `e.pos()`, i.e. before the iterator, so they are never visited),
plus the `marked` vector and traces of the created vertices and edges and of
the edges the iterator has examined. -/
structure RefineTrace where
  edges : List Edge
  marked : List Edge
  newVerts : List Vertex
  examined : List Edge
  newEdges : List Edge
  nextVid : ℕ
  nextEid : ℕ
deriving DecidableEq

/-- Translation of the edge loop of `Front::refine` (Front.h lines 95-121)
over the pending suffix of the edge list. -/
def refineLoop (fuel : ℕ) (sf : Vec2 → ℚ) :
    List Edge → RefineTrace → Option RefineTrace
  | [], t => some t
  | e :: rest, t =>
    match refine_edge_step fuel sf t.nextVid t.nextEid e with
    | none => none
    | some (mark, newEs, newVs) =>
      refineLoop fuel sf rest
        { edges := t.edges ++ newEs ++ [e]
          marked := t.marked ++ (if mark then [e] else [])
          newVerts := t.newVerts ++ newVs
          examined := t.examined ++ [e]
          newEdges := t.newEdges ++ newEs
          nextVid := t.nextVid + newVs.length
          nextEid := t.nextEid + newEs.length }

/-- Translation of the removal phase of `Front::refine` (Front.h lines
123-125): `edges_.remove(*e)` for every marked edge, removal being by object
identity (id). -/
def remove_marked (marked : List Edge) (es : List Edge) : List Edge :=
  es.filter (fun x => !(marked.any (fun m => m.id == x.id)))

/-- The result of a `refine` call: the new front state and return value,
plus the traces of the pass. -/
structure RefineResult where
  front : Front
  ret : ℤ
  marked : List Edge
  newVerts : List Vertex
  examined : List Edge
  newEdges : List Edge
deriving DecidableEq

/-- Translation of `Front::refine` (Front.h lines 88-132).  `compute_area()`
only refreshes a cached area and is not modelled.  `base_` is not touched by
the source and hence left unchanged. -/
def Front.refine (fuel : ℕ) (sf : Vec2 → ℚ) (f : Front) :
    Option RefineResult :=
  let n_before : ℤ := f.edges.length
  match refineLoop fuel sf f.edges
      { edges := [], marked := [], newVerts := [], examined := [],
        newEdges := [], nextVid := f.nextVid, nextEid := f.nextEid } with
  | none => none
  | some t =>
    let final := remove_marked t.marked t.edges
    some { front := { edges := final, base := f.base,
                      nextVid := t.nextVid, nextEid := t.nextEid }
           ret := (final.length : ℤ) - n_before
           marked := t.marked
           newVerts := t.newVerts
           examined := t.examined
           newEdges := t.newEdges }

/-- Translation of `Front::set_base_first` (Front.h lines 137-141). -/
def Front.set_base_first (f : Front) : Front :=
  match f.edges with
  | [] => f
  | e :: _ => { f with base := some e.id }

/-- Translation of `Front::set_base_next` (Front.h lines 146-154): advance
the iterator at the base edge by one and wrap from the end to the beginning.
A null `base_` on a nonempty front dereferences null in C++ (undefined
behaviour); it is modelled as the identity and never exercised below. -/
def Front.set_base_next (f : Front) : Front :=
  match f.edges with
  | [] => f
  | _ :: _ =>
    match f.base with
    | none => f
    | some b =>
      let i := f.edges.findIdx (fun e => e.id == b)
      let j := (i + 1) % f.edges.length
      match f.edges.get? j with
      | some e2 => { f with base := some e2.id }
      | none => f

/-- One boundary edge handed to the `Front` constructor by the domain. -/
structure BoundaryEdge where
  v1 : Vertex
  v2 : Vertex
  marker : ℤ
deriving DecidableEq

/-- Translation of the edge-seeding loop of the `Front` constructor (Front.h
lines 49-64): fix each edge's first vertex, add an edge with the same
marker (`add_edge` appends at the end and runs the hook), and flag both
endpoints `on_boundary`. -/
def construct_edges : List BoundaryEdge → ℕ → List Edge
  | [], _ => []
  | b :: rest, eid =>
    let v1f := { b.v1 with is_fixed := true }
    let e_new := set_on_boundary (insert_edge eid v1f b.v2 b.marker)
    e_new :: construct_edges rest (eid + 1)

/-- Translation of the `Front` constructor (Front.h lines 44-71): seed the
edges from the boundaries, leave `base_` at its `nullptr` initializer
(line 333), then refine.  The `check_orientation` `ASSERT` aborts on
malformed input and does not change the state; it is not modelled. -/
def Front.construct (fuel : ℕ) (sf : Vec2 → ℚ) (bes : List BoundaryEdge)
    (vid0 : ℕ) : Option Front :=
  let es := construct_edges bes 0
  let f0 : Front :=
    { edges := es, base := none, nextVid := vid0, nextEid := bes.length }
  match f0.refine fuel sf with
  | none => none
  | some r => some r.front

/-! ### Concrete instances used to exercise the definitions

A unit edge on the x-axis; with the constant size function `1/4` it is
subdivided into four sub-edges, with the constant size function `2` it is
left unchanged.  All lengths arising here are perfect rational squares, so
`Rat.sqrt` computes them exactly. -/

/-- A constant size function that forces subdivision of the unit edge. -/
def sfQuarter : Vec2 → ℚ := fun _ => 1/4

/-- A constant size function larger than the unit edge: no subdivision. -/
def sfTwo : Vec2 → ℚ := fun _ => 2

/-- A size function increasing along the x-axis. -/
def sfUp : Vec2 → ℚ := fun p => 1 + p.x

/-- A size function decreasing along the x-axis. -/
def sfDown : Vec2 → ℚ := fun p => 2 - p.x

/-- Start vertex of the unit edge. -/
def vA : Vertex := { id := 0, xy := ⟨0, 0⟩ }

/-- End vertex of the unit edge. -/
def vB : Vertex := { id := 1, xy := ⟨1, 0⟩ }

/-- The unit edge on the x-axis, marker 5. -/
def eAB : Edge := { id := 0, v1 := vA, v2 := vB, marker := 5 }

/-- A one-edge front whose base points at the unit edge. -/
def fSub : Front := { edges := [eAB], base := some 0, nextVid := 2, nextEid := 1 }

/-- The result of refining `fSub` with `sfTwo`: a no-op pass. -/
def outNop : RefineResult :=
  { front := fSub, ret := 0, marked := [], newVerts := [],
    examined := [eAB], newEdges := [] }

/-- `vA` as mutated by the subdividing pass (flagged by hook and
boundary marking). -/
def vA1 : Vertex := { id := 0, xy := ⟨0, 0⟩, on_boundary := true, on_front := true }

/-- `vB` as mutated by the subdividing pass. -/
def vB1 : Vertex := { id := 1, xy := ⟨1, 0⟩, on_boundary := true, on_front := true }

/-- First interior vertex created by the subdividing pass. -/
def w1 : Vertex :=
  { id := 2, xy := ⟨1/4, 0⟩, is_fixed := true, on_boundary := true, on_front := true }

/-- Second interior vertex created by the subdividing pass. -/
def w2 : Vertex :=
  { id := 3, xy := ⟨1/2, 0⟩, is_fixed := true, on_boundary := true, on_front := true }

/-- Third interior vertex created by the subdividing pass. -/
def w3 : Vertex :=
  { id := 4, xy := ⟨3/4, 0⟩, is_fixed := true, on_boundary := true, on_front := true }

/-- First sub-edge of the subdividing pass. -/
def sE1 : Edge := { id := 1, v1 := vA1, v2 := w1, marker := 5 }

/-- Second sub-edge of the subdividing pass. -/
def sE2 : Edge := { id := 2, v1 := w1, v2 := w2, marker := 5 }

/-- Third sub-edge of the subdividing pass. -/
def sE3 : Edge := { id := 3, v1 := w2, v2 := w3, marker := 5 }

/-- Fourth sub-edge of the subdividing pass. -/
def sE4 : Edge := { id := 4, v1 := w3, v2 := vB1, marker := 5 }

/-- The result of refining `fSub` with `sfQuarter`: the unit edge is
replaced by four sub-edges while the base keeps pointing at the removed
edge id 0. -/
def outSub : RefineResult :=
  { front := { edges := [sE1, sE2, sE3, sE4], base := some 0,
               nextVid := 5, nextEid := 5 }
    ret := 3, marked := [eAB], newVerts := [w1, w2, w3], examined := [eAB],
    newEdges := [sE1, sE2, sE3, sE4] }

/-- The coordinate sequence produced for the unit edge under `sfQuarter`
(after the final reversal). -/
def lSub : List Vec2 := [⟨0, 0⟩, ⟨1/4, 0⟩, ⟨1/2, 0⟩, ⟨3/4, 0⟩, ⟨1, 0⟩]

/-- The same coordinate sequence before the final reversal (marching ran
from `v2` because the endpoint densities tie). -/
def lSubPre : List Vec2 := [⟨1, 0⟩, ⟨3/4, 0⟩, ⟨1/2, 0⟩, ⟨1/4, 0⟩, ⟨0, 0⟩]

/-- The seeded copy of `vA` after construction: fixed, on the boundary and
on the front. -/
def vACon : Vertex :=
  { id := 0, xy := ⟨0, 0⟩, is_fixed := true, on_boundary := true, on_front := true }

/-- The seeded copy of `vB` after construction. -/
def vBCon : Vertex := { id := 1, xy := ⟨1, 0⟩, on_boundary := true, on_front := true }

/-- The single edge of the constructed front. -/
def eCon : Edge := { id := 0, v1 := vACon, v2 := vBCon, marker := 5 }

/-- The front built by `Front.construct` from the unit boundary edge with
`sfTwo`: one edge, and a null base pointer. -/
def gCon : Front := { edges := [eCon], base := none, nextVid := 2, nextEid := 1 }

/-- A three-edge front with distinct edge ids and base at the first edge. -/
def fTri : Front :=
  { edges := [{ id := 10, v1 := vA, v2 := vB, marker := 1 },
              { id := 11, v1 := vB, v2 := vA, marker := 2 },
              { id := 12, v1 := vA, v2 := vA, marker := 3 }],
    base := some 10, nextVid := 2, nextEid := 13 }

/-- The empty front. -/
def fEmpty : Front := { edges := [], base := none, nextVid := 0, nextEid := 0 }

/-! ### Helper lemmas about the marching pipeline -/

/-- The marching loop only appends to its accumulator, and pushes at least
one point before returning (the loop body runs before any break). -/
theorem march_acc (sf : Vec2 → ℚ) (tang a_xy : Vec2) (eLen s_end : ℚ) :
    ∀ (fuel : ℕ) (xy : Vec2) (acc pts : List Vec2) (s : ℚ),
      march sf tang a_xy eLen s_end fuel xy acc = some (pts, s) →
      ∃ ext, pts = acc ++ ext ∧ ext ≠ [] := by
  intro fuel
  induction fuel with
  | zero => intro xy acc pts s h; simp [march] at h
  | succ n ih =>
    intro xy acc pts s h
    simp only [march] at h
    split at h
    · obtain ⟨h1, _⟩ := Prod.mk.injEq .. ▸ Option.some.injEq .. ▸ h
      exact ⟨_, h1.symm, by simp⟩
    · obtain ⟨ext, hext, hne⟩ := ih _ _ _ _ h
      exact ⟨_ :: ext, by simpa using hext, by simp⟩

theorem redistribute_length (ws : List ℚ) (d : Vec2) (n : ℕ) :
    ∀ (ps : List Vec2) (i : ℕ), (redistribute ws d n i ps).length = ps.length := by
  intro ps
  induction ps with
  | nil => intro i; rfl
  | cons p ps ih => intro i; simp [redistribute, ih]

/-- The crop redistribution does not touch the first point (index 0 fails
the loop bound `1 <= i`). -/
theorem redistribute_head (ws : List ℚ) (d : Vec2) (n : ℕ) (ps : List Vec2) :
    (redistribute ws d n 0 ps).head? = ps.head? := by
  cases ps with
  | nil => rfl
  | cons p ps => simp [redistribute]

/-- The crop redistribution does not touch the last point (index `n - 1`
fails the loop bound `i < n - 1`). -/
theorem redistribute_getLast (ws : List ℚ) (d : Vec2) (n : ℕ) :
    ∀ (ps : List Vec2) (i : ℕ), i + ps.length = n →
      (redistribute ws d n i ps).getLast? = ps.getLast? := by
  intro ps
  induction ps with
  | nil => intro i _; rfl
  | cons p ps ih =>
    intro i hn
    simp only [List.length_cons] at hn
    cases ps with
    | nil =>
      simp only [List.length_nil, Nat.zero_add] at hn
      have : ¬ (1 ≤ i ∧ i + 1 < n) := by omega
      simp [redistribute, this]
    | cons q tail =>
      have h2 := ih (i + 1) (by simpa [Nat.add_comm, Nat.add_assoc, Nat.add_left_comm] using hn)
      simp only [redistribute] at h2 ⊢
      rw [List.getLast?_cons_cons, h2, List.getLast?_cons_cons]

/-- The core pipeline of `create_sub_vertex_coords` starts exactly at the
marching start vertex and ends exactly at the far vertex `v_b` (the last
point is overwritten with `v_b` and the redistribution leaves both
endpoints in place), and produces at least two points. -/
theorem subCoordsCore_spec (fuel : ℕ) (sf : Vec2 → ℚ) (e : Edge) (dir : Bool)
    (r1 r2 : ℚ) (l : List Vec2)
    (h : subCoordsCore fuel sf e dir r1 r2 = some l) :
    l.head? = some (march_start e dir).xy ∧
    l.getLast? = some (march_end e dir).xy ∧ 2 ≤ l.length := by
  simp only [subCoordsCore] at h
  split at h
  · exact absurd h (by simp)
  case _ pts s_last heq =>
    obtain ⟨ext, hext, hne⟩ := march_acc _ _ _ _ _ _ _ _ _ _ heq
    have hl := Option.some.inj h
    subst hl
    refine ⟨?_, ?_, ?_⟩
    · rw [redistribute_head, hext, List.singleton_append,
        List.head?_append, List.dropLast_cons_of_ne_nil hne]
      rfl
    · rw [redistribute_getLast _ _ _ _ 0 (by simp), List.getLast?_concat]
    · rw [redistribute_length]
      simp only [List.length_append, List.length_dropLast, hext]
      cases ext with
      | nil => exact absurd rfl hne
      | cons a t => simp

/-- Endpoint preservation through `create_sub_vertex_coords`: after the
final reversal the returned sequence always runs from `e.v1()`'s
coordinates to `e.v2()`'s coordinates. -/
theorem csvc_endpoints (fuel : ℕ) (sf : Vec2 → ℚ) (e : Edge) (dir : Bool)
    (r1 r2 : ℚ) (l : List Vec2)
    (h : create_sub_vertex_coords fuel sf e dir r1 r2 = some l) :
    l.head? = some e.v1.xy ∧ l.getLast? = some e.v2.xy ∧ 2 ≤ l.length := by
  simp only [create_sub_vertex_coords] at h
  split at h
  · exact absurd h (by simp)
  case _ l0 heq =>
    obtain ⟨h1, h2, h3⟩ := subCoordsCore_spec _ _ _ _ _ _ _ heq
    have hl := Option.some.inj h
    subst hl
    cases dir with
    | true =>
      simpa [march_start, march_end] using ⟨h1, h2, h3⟩
    | false =>
      simp only [march_start, march_end, if_neg Bool.false_ne_true] at h1 h2
      simp only [if_neg Bool.false_ne_true]
      rw [List.head?_reverse, List.getLast?_reverse, List.length_reverse]
      exact ⟨h2, h1, h3⟩

/-- Two edges are linked when the second starts at the vertex (same object,
same coordinates) at which the first ends. -/
def edge_linked (a b : Edge) : Prop :=
  a.v2.id = b.v1.id ∧ a.v2.xy = b.v1.xy

/-- Structure of the edges and vertices built by `create_sub_edges_loop`:
the chain starts at `v_cur`, ends at `v_end`, is linked, every edge carries
the given marker with both endpoint vertices flagged `on_front` (the edge
object itself not), the created vertices sit exactly at the interior
coordinates, and the created ids are the consecutive fresh ids. -/
theorem csel_spec (marker : ℤ) (v_end : Vertex) :
    ∀ (coords : List Vec2) (v_cur : Vertex) (vid eid : ℕ),
      (create_sub_edges_loop marker v_end v_cur coords vid eid).1 ≠ [] ∧
      ((create_sub_edges_loop marker v_end v_cur coords vid eid).1.head?.map
        fun a => (a.v1.id, a.v1.xy)) = some (v_cur.id, v_cur.xy) ∧
      ((create_sub_edges_loop marker v_end v_cur coords vid eid).1.getLast?.map
        fun a => (a.v2.id, a.v2.xy)) = some (v_end.id, v_end.xy) ∧
      List.Chain' edge_linked
        (create_sub_edges_loop marker v_end v_cur coords vid eid).1 ∧
      (∀ x ∈ (create_sub_edges_loop marker v_end v_cur coords vid eid).1,
        x.marker = marker ∧ x.v1.on_front = true ∧ x.v2.on_front = true ∧
        x.on_front = false) ∧
      (create_sub_edges_loop marker v_end v_cur coords vid eid).2.map Vertex.xy
        = coords ∧
      (create_sub_edges_loop marker v_end v_cur coords vid eid).1.map Edge.id
        = List.range' eid (coords.length + 1) ∧
      (create_sub_edges_loop marker v_end v_cur coords vid eid).2.map Vertex.id
        = List.range' vid coords.length := by
  intro coords
  induction coords with
  | nil =>
    intro v_cur vid eid
    refine ⟨by simp [create_sub_edges_loop], ?_, ?_, ?_, ?_, ?_, ?_, ?_⟩ <;>
      simp [create_sub_edges_loop, set_on_boundary, insert_edge, mark_objects,
        edge_linked, List.range']
  | cons c cs ih =>
    intro v_cur vid eid
    obtain ⟨ihne, ihhead, ihlast, ihchain, ihall, ihxy, iheid, ihvid⟩ :=
      ih ((set_on_boundary (insert_edge eid v_cur
            { id := vid, xy := c, is_fixed := true } marker)).v2) (vid + 1) (eid + 1)
    obtain ⟨y, ys, hys⟩ := List.exists_cons_of_ne_nil ihne
    simp only [create_sub_edges_loop]
    refine ⟨by simp, ?_, ?_, ?_, ?_, ?_, ?_, ?_⟩
    · rfl
    · rw [hys, List.getLast?_cons_cons]
      rw [hys] at ihlast
      exact ihlast
    · refine List.chain'_cons'.2 ⟨?_, ihchain⟩
      intro b hb
      rw [hys] at ihhead hb
      simp only [List.head?_cons] at hb
      have hyb : y = b := by simpa using hb
      subst hyb
      simp only [List.head?_cons, Option.map_some] at ihhead
      have h2 := Option.some.inj ihhead
      exact ⟨(congrArg Prod.fst h2).symm, (congrArg Prod.snd h2).symm⟩
    · intro x hx
      rcases List.mem_cons.1 hx with hx | hx
      · subst hx
        exact ⟨rfl, rfl, rfl, rfl⟩
      · exact ihall x hx
    · simp only [List.map_cons, ihxy]
      rfl
    · simp only [List.map_cons, iheid, List.length_cons]
      rw [List.range'_succ]
      rfl
    · simp only [List.map_cons, ihvid, List.length_cons]
      rw [List.range'_succ]
      rfl

/-! ### Helper lemmas about the refine loop -/

/-- An edge whose coordinate computation succeeds with fewer than 3 points
takes the keep branch: not marked, no sub-edges, no sub-vertices. -/
theorem refine_edge_step_keep (fuel : ℕ) (sf : Vec2 → ℚ) (vid eid : ℕ)
    (e : Edge) (h1 : (edge_coords fuel sf e).isSome = true)
    (h2 : subdivB fuel sf e = false) :
    refine_edge_step fuel sf vid eid e = some (false, [], []) := by
  cases hc : edge_coords fuel sf e with
  | none => rw [hc] at h1; simp at h1
  | some l =>
    have hlt : l.length < 3 := by simpa [subdivB, hc] using h2
    simp only [refine_edge_step, hc]
    rw [if_pos hlt]

/-- The mark computed by the per-edge step is exactly the subdivision
predicate. -/
theorem refine_edge_step_mark (fuel : ℕ) (sf : Vec2 → ℚ) (vid eid : ℕ)
    (e : Edge) (mark : Bool) (es : List Edge) (vs : List Vertex)
    (h : refine_edge_step fuel sf vid eid e = some (mark, es, vs)) :
    mark = subdivB fuel sf e := by
  cases hc : edge_coords fuel sf e with
  | none => simp [refine_edge_step, hc] at h
  | some l =>
    simp only [refine_edge_step, hc] at h
    split at h
    · next hlt =>
      have hm : false = mark := congrArg Prod.fst (Option.some.inj h)
      simp [subdivB, hc, hlt, ← hm]
    · next hlt =>
      have hm : true = mark := congrArg Prod.fst (Option.some.inj h)
      simp [subdivB, hc, hlt, ← hm]

/-- Every sub-edge created by the per-edge step has a fresh id. -/
theorem refine_edge_step_ids (fuel : ℕ) (sf : Vec2 → ℚ) (vid eid : ℕ)
    (e : Edge) (mark : Bool) (es : List Edge) (vs : List Vertex)
    (h : refine_edge_step fuel sf vid eid e = some (mark, es, vs)) :
    ∀ x ∈ es, eid ≤ x.id := by
  cases hc : edge_coords fuel sf e with
  | none => simp [refine_edge_step, hc] at h
  | some l =>
    simp only [refine_edge_step, hc] at h
    split at h
    · have hes : ([] : List Edge) = es :=
        congrArg (fun p => p.2.1) (Option.some.inj h)
      rw [← hes]
      intro x hx
      simp at hx
    · have hes : (create_sub_edges e l vid eid).1 = es :=
        congrArg (fun p => p.2.1) (Option.some.inj h)
      rw [← hes]
      intro x hx
      have hid := (csel_spec e.marker e.v2 ((l.drop 1).dropLast) e.v1 vid eid).2.2.2.2.2.2.1
      have : x.id ∈ (create_sub_edges e l vid eid).1.map Edge.id :=
        List.mem_map_of_mem Edge.id hx
      rw [create_sub_edges, hid] at this
      obtain ⟨i, _, hi⟩ := List.mem_range'.1 this
      omega

/-- The loop examines exactly the pending edges, in order. -/
theorem refineLoop_examined (fuel : ℕ) (sf : Vec2 → ℚ) :
    ∀ (pending : List Edge) (t t2 : RefineTrace),
      refineLoop fuel sf pending t = some t2 →
      t2.examined = t.examined ++ pending := by
  intro pending
  induction pending with
  | nil =>
    intro t t2 h
    obtain rfl : t = t2 := by simpa [refineLoop] using h
    simp
  | cons e rest ih =>
    intro t t2 h
    simp only [refineLoop] at h
    split at h
    · exact absurd h (by simp)
    · have h2 := ih _ _ h
      rw [h2]
      simp

/-- Edges end up in the marked vector only when the loop visited them as
pending edges whose subdivision predicate holds. -/
theorem refineLoop_marked (fuel : ℕ) (sf : Vec2 → ℚ) :
    ∀ (pending : List Edge) (t t2 : RefineTrace),
      refineLoop fuel sf pending t = some t2 →
      ∀ x ∈ t2.marked,
        x ∈ t.marked ∨ (x ∈ pending ∧ subdivB fuel sf x = true) := by
  intro pending
  induction pending with
  | nil =>
    intro t t2 h
    obtain rfl : t = t2 := by simpa [refineLoop] using h
    intro x hx
    exact Or.inl hx
  | cons e rest ih =>
    intro t t2 h
    simp only [refineLoop] at h
    split at h
    · exact absurd h (by simp)
    · next mark newEs newVs heq =>
      intro x hx
      rcases ih _ _ h x hx with hx2 | hx2
      · rcases List.mem_append.1 hx2 with hx3 | hx3
        · exact Or.inl hx3
        · cases hmark : mark with
          | false => rw [hmark] at hx3; simp at hx3
          | true =>
            rw [hmark] at hx3
            simp only [if_true, List.mem_singleton] at hx3
            subst hx3
            refine Or.inr ⟨List.mem_cons_self _ _, ?_⟩
            rw [← refine_edge_step_mark _ _ _ _ _ _ _ _ heq, hmark]
      · exact Or.inr ⟨List.mem_cons_of_mem _ hx2.1, hx2.2⟩

/-- The fresh-edge-id counter is monotone across the loop, and every edge
the loop adds to the new-edge trace has an id at or above the counter's
starting value. -/
theorem refineLoop_newEdges (fuel : ℕ) (sf : Vec2 → ℚ) :
    ∀ (pending : List Edge) (t t2 : RefineTrace),
      refineLoop fuel sf pending t = some t2 →
      t.nextEid ≤ t2.nextEid ∧
      ∀ x ∈ t2.newEdges, x ∈ t.newEdges ∨ t.nextEid ≤ x.id := by
  intro pending
  induction pending with
  | nil =>
    intro t t2 h
    obtain rfl : t = t2 := by simpa [refineLoop] using h
    exact ⟨le_refl _, fun x hx => Or.inl hx⟩
  | cons e rest ih =>
    intro t t2 h
    simp only [refineLoop] at h
    split at h
    · exact absurd h (by simp)
    · next mark newEs newVs heq =>
      obtain ⟨hmono, hmem⟩ := ih _ _ h
      simp only at hmono hmem
      refine ⟨le_trans (Nat.le_add_right _ _) hmono, ?_⟩
      intro x hx
      rcases hmem x hx with hx2 | hx2
      · rcases List.mem_append.1 hx2 with hx3 | hx3
        · exact Or.inl hx3
        · exact Or.inr (refine_edge_step_ids _ _ _ _ _ _ _ _ heq x hx3)
      · exact Or.inr (le_trans (Nat.le_add_right _ _) hx2)

/-- Edges present in the list (and all pending edges, marked or not) are
still in the edge list when the loop finishes: removal happens only after
the loop. -/
theorem refineLoop_edges_mem (fuel : ℕ) (sf : Vec2 → ℚ) :
    ∀ (pending : List Edge) (t t2 : RefineTrace),
      refineLoop fuel sf pending t = some t2 →
      (∀ x ∈ t.edges, x ∈ t2.edges) ∧ (∀ x ∈ pending, x ∈ t2.edges) := by
  intro pending
  induction pending with
  | nil =>
    intro t t2 h
    obtain rfl : t = t2 := by simpa [refineLoop] using h
    exact ⟨fun x hx => hx, fun x hx => by simp at hx⟩
  | cons e rest ih =>
    intro t t2 h
    simp only [refineLoop] at h
    split at h
    · exact absurd h (by simp)
    · obtain ⟨hmono, _⟩ := ih _ _ h
      refine ⟨fun x hx => hmono x (by simp [hx]), ?_⟩
      intro x hx
      rcases List.mem_cons.1 hx with hx2 | hx2
      · exact hmono x (by simp [hx2])
      · exact (ih _ _ h).2 x hx2

/-- When no pending edge subdivides, the loop is the identity on the state
except for appending the pending edges to the list and the examined
trace. -/
theorem refineLoop_keep_all (fuel : ℕ) (sf : Vec2 → ℚ) :
    ∀ (pending : List Edge) (t : RefineTrace),
      (∀ e ∈ pending,
        (edge_coords fuel sf e).isSome = true ∧ subdivB fuel sf e = false) →
      refineLoop fuel sf pending t =
        some { t with edges := t.edges ++ pending,
                      examined := t.examined ++ pending } := by
  intro pending
  induction pending with
  | nil => intro t _; simp [refineLoop]
  | cons e rest ih =>
    intro t h
    have he := h e (List.mem_cons_self _ _)
    have hstep := refine_edge_step_keep fuel sf t.nextVid t.nextEid e he.1 he.2
    have hrest := ih { t with edges := t.edges ++ [e],
                              examined := t.examined ++ [e] }
      (fun x hx => h x (List.mem_cons_of_mem _ hx))
    simp only [refineLoop, hstep]
    simpa [List.append_assoc] using hrest

/-- Removing an empty marked vector leaves the list unchanged. -/
theorem remove_marked_nil (es : List Edge) : remove_marked [] es = es := by
  simp [remove_marked]

/-- An edge sharing no id with any marked edge survives the removal
phase. -/
theorem mem_remove_marked (marked es : List Edge) (x : Edge) (hx : x ∈ es)
    (h : ∀ m ∈ marked, m.id ≠ x.id) : x ∈ remove_marked marked es := by
  refine List.mem_filter.2 ⟨hx, ?_⟩
  simp only [Bool.not_eq_true']
  rw [List.any_eq_false]
  intro m hm
  simpa using h m hm

/-- Every marked edge is gone after the removal phase. -/
theorem marked_not_mem_remove (marked es : List Edge) (m : Edge)
    (hm : m ∈ marked) : m ∉ remove_marked marked es := by
  intro hmem
  have h1 := (List.mem_filter.1 hmem).2
  have h2 : marked.any (fun m2 => m2.id == m.id) = true :=
    List.any_eq_true.2 ⟨m, hm, by simp⟩
  rw [h2] at h1
  simp at h1

/-- Unfolding of a successful `Front.refine` call in terms of the loop. -/
theorem refine_some (fuel : ℕ) (sf : Vec2 → ℚ) (f : Front)
    (out : RefineResult) (h : Front.refine fuel sf f = some out) :
    ∃ t2, refineLoop fuel sf f.edges
        { edges := [], marked := [], newVerts := [], examined := [],
          newEdges := [], nextVid := f.nextVid, nextEid := f.nextEid }
        = some t2 ∧
      out = { front := { edges := remove_marked t2.marked t2.edges,
                         base := f.base, nextVid := t2.nextVid,
                         nextEid := t2.nextEid },
              ret := ((remove_marked t2.marked t2.edges).length : ℤ)
                       - (f.edges.length : ℤ),
              marked := t2.marked, newVerts := t2.newVerts,
              examined := t2.examined, newEdges := t2.newEdges } := by
  simp only [Front.refine] at h
  split at h
  · exact absurd h (by simp)
  · next t2 heq => exact ⟨t2, heq, (Option.some.inj h).symm⟩

/-! ### Helper lemmas about the base pointer operations -/

/-- With pairwise distinct edge ids, searching the container for the id of
its `i`-th edge finds position `i` (the iterator position `base_->pos()`). -/
theorem findIdx_id_get (l : List Edge) :
    ∀ (i : Fin l.length), (l.map Edge.id).Nodup →
      l.findIdx (fun e => e.id == (l.get i).id) = i := by
  induction l with
  | nil => intro i; exact absurd i.2 (by simp)
  | cons a l ih =>
    intro i hnd
    cases i using Fin.cases with
    | zero => simp [List.findIdx_cons]
    | succ j =>
      have hmem : (l.get j).id ∈ l.map Edge.id :=
        List.mem_map_of_mem Edge.id (List.get_mem l j.1 j.2)
      have hni : a.id ∉ l.map Edge.id := by
        rw [List.map_cons] at hnd
        exact (List.nodup_cons.1 hnd).1
      have ha : (a.id == ((a :: l).get j.succ).id) = false := by
        simp only [List.get_cons_succ', beq_eq_false_iff_ne, ne_eq]
        intro hcontra
        exact hni (hcontra ▸ hmem)
      rw [List.findIdx_cons, ha]
      have htail := ih j ((List.nodup_cons.1 (List.map_cons Edge.id a l ▸ hnd)).2)
      simp only [cond_false, List.get_cons_succ', htail, Fin.val_succ]

/-- One `set_base_next` call on a valid base at position `i` moves the base
to position `(i + 1) mod N` and changes nothing else. -/
theorem set_base_next_step (f : Front) (i : ℕ) (hi : i < f.edges.length)
    (hnd : (f.edges.map Edge.id).Nodup)
    (hb : f.base = (f.edges.get? i).map Edge.id) :
    f.set_base_next =
      { f with base :=
          (f.edges.get? ((i + 1) % f.edges.length)).map Edge.id } := by
  obtain ⟨es, b, nv, ne⟩ := f
  simp only at hi hnd hb ⊢
  cases es with
  | nil => exact absurd hi (by simp)
  | cons a l =>
    have hb2 : b = some ((a :: l).get ⟨i, hi⟩).id := by
      rw [hb, List.get?_eq_get hi]; rfl
    subst hb2
    have hj : (i + 1) % (a :: l).length < (a :: l).length :=
      Nat.mod_lt _ (by omega)
    simp only [Front.set_base_next]
    rw [findIdx_id_get (a :: l) ⟨i, hi⟩ hnd]
    rw [List.get?_eq_get hj]
    rfl

/-- Iterating `set_base_next` `k` times from a valid base at position `i`
puts the base at position `(i + k) mod N`. -/
theorem set_base_next_iterate (k : ℕ) :
    ∀ (f : Front) (i : ℕ), i < f.edges.length →
      (f.edges.map Edge.id).Nodup →
      f.base = (f.edges.get? i).map Edge.id →
      Front.set_base_next^[k] f =
        { f with base :=
            (f.edges.get? ((i + k) % f.edges.length)).map Edge.id } := by
  induction k with
  | zero =>
    intro f i hi hnd hb
    rw [Nat.add_zero, Nat.mod_eq_of_lt hi, ← hb]
    rfl
  | succ k ih =>
    intro f i hi hnd hb
    rw [Function.iterate_succ_apply, set_base_next_step f i hi hnd hb]
    have hj : (i + 1) % f.edges.length < f.edges.length :=
      Nat.mod_lt _ (by omega)
    have h2 := ih { f with base :=
        (f.edges.get? ((i + 1) % f.edges.length)).map Edge.id }
      ((i + 1) % f.edges.length) hj hnd rfl
    rw [h2]
    have hidx : ((i + 1) % f.edges.length + k) % f.edges.length
        = (i + (k + 1)) % f.edges.length := by
      rw [Nat.mod_add_mod]
      congr 1
      omega
    rw [hidx]

/-- A successful refine call never touches the base pointer (the source of
`Front::refine` never reads or writes `base_`). -/
theorem refine_base (fuel : ℕ) (sf : Vec2 → ℚ) (f : Front)
    (out : RefineResult) (h : Front.refine fuel sf f = some out) :
    out.front.base = f.base := by
  obtain ⟨t2, _, rfl⟩ := refine_some fuel sf f out h
  rfl

/-! ### Claims -/

/-- C1 (counterexample): refining the one-edge front `fSub` (base pointing
at edge id 0) with `sfQuarter` removes edge 0 (it is in the marked list and
no remaining edge carries id 0), yet the base still designates id 0
afterwards: the base is left dangling, and it was never "reset to the first
remaining edge or to null". -/
theorem C1_counterexample :
    ((Front.refine 100 sfQuarter fSub).map fun o =>
      (o.front.base, o.front.edges.all fun x => x.id != 0,
        decide (eAB ∈ o.marked)))
    = some (some 0, true, true) := by with_unfolding_all decide

/-- C1 (amended): the base pointer is simply left alone: `refine` returns
it unchanged even when it removes the edge it designates, and construction
leaves it at its null initializer rather than the first edge; it only moves
through the explicit setters. -/
theorem C1_base_policy_amended :
    (∀ (fuel : ℕ) (sf : Vec2 → ℚ) (f : Front) (out : RefineResult),
      Front.refine fuel sf f = some out → out.front.base = f.base) ∧
    (∀ (fuel : ℕ) (sf : Vec2 → ℚ) (bes : List BoundaryEdge) (vid0 : ℕ)
      (g : Front), Front.construct fuel sf bes vid0 = some g →
      g.base = none) := by
  constructor
  · exact refine_base
  · intro fuel sf bes vid0 g h
    simp only [Front.construct] at h
    split at h
    · exact absurd h (by simp)
    · next r heq =>
      rw [← Option.some.inj h]
      exact refine_base fuel sf _ r heq

/-- C1 (witness): the amended statement at the concrete no-op refine and at
a concrete construction. -/
theorem C1_witness :
    Front.refine 100 sfTwo fSub = some outNop ∧
    outNop.front.base = fSub.base ∧
    Front.construct 100 sfTwo [⟨vA, vB, 5⟩] 2 = some gCon ∧
    gCon.base = none :=
  ⟨by with_unfolding_all decide,
   C1_base_policy_amended.1 100 sfTwo fSub outNop (by with_unfolding_all decide),
   by with_unfolding_all decide,
   C1_base_policy_amended.2 100 sfTwo [⟨vA, vB, 5⟩] 2 gCon
     (by with_unfolding_all decide)⟩

/-- C2: snapshot semantics of a refine pass.  Provided every edge id in the
front is below the fresh-id counter (an invariant of all fronts the code
builds), a successful pass examines exactly the edges present at the start,
none of the edges inserted during the pass is examined (hence none is
subdivided in the same pass), and the marked edges are all examined
(removal happens only after the loop) and are gone from the final list. -/
theorem C2_snapshot_semantics (fuel : ℕ) (sf : Vec2 → ℚ) (f : Front)
    (out : RefineResult)
    (hids : ∀ e ∈ f.edges, e.id < f.nextEid)
    (h : Front.refine fuel sf f = some out) :
    out.examined = f.edges ∧
    (∀ x ∈ out.newEdges, x ∉ out.examined) ∧
    (∀ m ∈ out.marked, m ∈ out.examined) ∧
    (∀ m ∈ out.marked, m ∉ out.front.edges) := by
  obtain ⟨t2, hloop, rfl⟩ := refine_some fuel sf f out h
  have hexam := refineLoop_examined fuel sf f.edges _ t2 hloop
  simp only [List.nil_append] at hexam
  refine ⟨hexam, ?_, ?_, ?_⟩
  · intro x hx hmem
    obtain ⟨_, hnew⟩ := refineLoop_newEdges fuel sf f.edges _ t2 hloop
    rcases hnew x hx with h2 | h2
    · simp at h2
    · rw [hexam] at hmem
      exact absurd (hids x hmem) (Nat.not_lt.2 h2)
  · intro m hm
    rcases refineLoop_marked fuel sf f.edges _ t2 hloop m hm with h2 | h2
    · simp at h2
    · rw [hexam]
      exact h2.1
  · intro m hm
    exact marked_not_mem_remove t2.marked t2.edges m hm

/-- C2 (witness): the subdividing pass on the unit edge, projected to the
concrete sub-edge `sE1` and the removed original `eAB`. -/
theorem C2_witness :
    outSub.examined = fSub.edges ∧
    sE1 ∈ outSub.newEdges ∧ sE1 ∉ outSub.examined ∧
    eAB ∈ outSub.marked ∧ eAB ∈ outSub.examined ∧
    eAB ∉ outSub.front.edges :=
  have h := C2_snapshot_semantics 100 sfQuarter fSub outSub
    (by with_unfolding_all decide) (by with_unfolding_all decide)
  ⟨h.1, by with_unfolding_all decide,
   h.2.1 sE1 (by with_unfolding_all decide),
   by with_unfolding_all decide,
   h.2.2.1 eAB (by with_unfolding_all decide),
   h.2.2.2 eAB (by with_unfolding_all decide)⟩

/-- C3: if every edge of the front yields fewer than 3 points (with the
marching loop terminating), `refine` is a no-op: it removes nothing,
inserts nothing, leaves the edge sequence (and the whole front) unchanged
and returns 0.  In particular a repeated call on such a front again yields
zero new edges. -/
theorem C3_refine_idempotent (fuel : ℕ) (sf : Vec2 → ℚ) (f : Front)
    (h : ∀ e ∈ f.edges,
      (edge_coords fuel sf e).isSome = true ∧ subdivB fuel sf e = false) :
    Front.refine fuel sf f =
      some { front := f, ret := 0, marked := [], newVerts := [],
             examined := f.edges, newEdges := [] } := by
  have hloop := refineLoop_keep_all fuel sf f.edges
    { edges := [], marked := [], newVerts := [], examined := [],
      newEdges := [], nextVid := f.nextVid, nextEid := f.nextEid } h
  simp only [Front.refine, hloop]
  simp [remove_marked_nil]

/-- C3 (witness): the no-op pass on the one-edge front under `sfTwo`. -/
theorem C3_witness :
    Front.refine 100 sfTwo fSub =
      some { front := fSub, ret := 0, marked := [], newVerts := [],
             examined := fSub.edges, newEdges := [] } :=
  C3_refine_idempotent 100 sfTwo fSub (by with_unfolding_all decide)

/-- C4: endpoint preservation.  Whenever `create_sub_vertex_coords`
returns, its sequence starts exactly at `v1`'s coordinates and ends exactly
at `v2`'s, and the sub-edge chain built from it starts at the original `v1`
vertex, ends at the original `v2` vertex, is consecutively linked, and
creates new vertices exactly at the interior coordinates. -/
theorem C4_endpoint_preservation (fuel : ℕ) (sf : Vec2 → ℚ) (e : Edge)
    (dir : Bool) (r1 r2 : ℚ) (l : List Vec2)
    (h : create_sub_vertex_coords fuel sf e dir r1 r2 = some l) :
    l.head? = some e.v1.xy ∧ l.getLast? = some e.v2.xy ∧ 2 ≤ l.length ∧
    ∀ (vid eid : ℕ),
      ((create_sub_edges e l vid eid).1.head?.map fun a => (a.v1.id, a.v1.xy))
          = some (e.v1.id, e.v1.xy) ∧
      ((create_sub_edges e l vid eid).1.getLast?.map fun a => (a.v2.id, a.v2.xy))
          = some (e.v2.id, e.v2.xy) ∧
      List.Chain' edge_linked (create_sub_edges e l vid eid).1 ∧
      (create_sub_edges e l vid eid).2.map Vertex.xy = (l.drop 1).dropLast := by
  obtain ⟨h1, h2, h3⟩ := csvc_endpoints fuel sf e dir r1 r2 l h
  refine ⟨h1, h2, h3, ?_⟩
  intro vid eid
  obtain ⟨_, hh, hl, hc, _, hxy, _, _⟩ :=
    csel_spec e.marker e.v2 ((l.drop 1).dropLast) e.v1 vid eid
  exact ⟨hh, hl, hc, hxy⟩

/-- C4 (witness): the subdivided unit edge. -/
theorem C4_witness :
    lSub.head? = some eAB.v1.xy ∧ lSub.getLast? = some eAB.v2.xy ∧
    2 ≤ lSub.length ∧
    ((create_sub_edges eAB lSub 2 1).1.head?.map fun a => (a.v1.id, a.v1.xy))
        = some (eAB.v1.id, eAB.v1.xy) ∧
    ((create_sub_edges eAB lSub 2 1).1.getLast?.map fun a => (a.v2.id, a.v2.xy))
        = some (eAB.v2.id, eAB.v2.xy) ∧
    List.Chain' edge_linked (create_sub_edges eAB lSub 2 1).1 ∧
    (create_sub_edges eAB lSub 2 1).2.map Vertex.xy = (lSub.drop 1).dropLast :=
  have h := C4_endpoint_preservation 100 sfQuarter eAB false (1/4) (1/4) lSub
    (by with_unfolding_all decide)
  ⟨h.1, h.2.1, h.2.2.1, (h.2.2.2 2 1).1, (h.2.2.2 2 1).2.1,
   (h.2.2.2 2 1).2.2.1, (h.2.2.2 2 1).2.2.2⟩

/-- C5: the marching direction flag of `refine` starts the march at the
endpoint with the strictly smaller sampled size-function value: when
`rho(v1) < rho(v2)` the march runs from `v1` along the edge tangent, and
when `rho(v1) > rho(v2)` it runs from `v2` along the negated tangent. -/
theorem C5_marching_direction (sf : Vec2 → ℚ) (e : Edge) :
    (sf e.v1.xy < sf e.v2.xy →
      refine_dir sf e = true ∧
      march_start e (refine_dir sf e) = e.v1 ∧
      march_tangent e (refine_dir sf e) = e.tangent) ∧
    (sf e.v2.xy < sf e.v1.xy →
      refine_dir sf e = false ∧
      march_start e (refine_dir sf e) = e.v2 ∧
      march_tangent e (refine_dir sf e) = -e.tangent) := by
  constructor
  · intro h
    have hd : refine_dir sf e = true := by simp [refine_dir, h]
    exact ⟨hd, by simp [march_start, hd], by simp [march_tangent, hd]⟩
  · intro h
    have hd : refine_dir sf e = false := by
      simp only [refine_dir, decide_eq_false_iff_not, not_lt]
      exact le_of_lt h
    exact ⟨hd, by simp [march_start, hd], by simp [march_tangent, hd]⟩

/-- C5 (witness): the unit edge under an increasing and a decreasing size
function. -/
theorem C5_witness :
    (refine_dir sfUp eAB = true ∧
      march_start eAB (refine_dir sfUp eAB) = eAB.v1 ∧
      march_tangent eAB (refine_dir sfUp eAB) = eAB.tangent) ∧
    (refine_dir sfDown eAB = false ∧
      march_start eAB (refine_dir sfDown eAB) = eAB.v2 ∧
      march_tangent eAB (refine_dir sfDown eAB) = -eAB.tangent) :=
  ⟨(C5_marching_direction sfUp eAB).1 (by with_unfolding_all decide),
   (C5_marching_direction sfDown eAB).2 (by with_unfolding_all decide)⟩

/-- C6 (counterexample): inserting an edge runs the hook, which leaves the
edge object itself unmarked: its `on_front` flag stays `false`, contrary to
the claim that "the inserted edge itself" is marked as part of the
front. -/
theorem C6_counterexample :
    (insert_edge 9 { id := 7, xy := ⟨2, 3⟩ } { id := 8, xy := ⟨4, 5⟩ } 3).on_front
      = false := rfl

/-- C6 (amended): the new-topology hook `mark_objects` flags exactly the
two endpoint vertices `on_front = true` at every insertion; the edge
argument passes through untouched, so an inserted edge's own flag stays
`false` — in particular for every sub-edge created during refinement. -/
theorem C6_on_front_amended (eid : ℕ) (v1 v2 : Vertex) (marker : ℤ) :
    (insert_edge eid v1 v2 marker).v1.on_front = true ∧
    (insert_edge eid v1 v2 marker).v2.on_front = true ∧
    (insert_edge eid v1 v2 marker).on_front = false ∧
    (∀ e : Edge, (mark_objects v1 v2 e).1.on_front = true ∧
      (mark_objects v1 v2 e).2.1.on_front = true ∧
      (mark_objects v1 v2 e).2.2 = e) ∧
    (∀ (e : Edge) (xy : List Vec2) (vid eid2 : ℕ),
      ∀ x ∈ (create_sub_edges e xy vid eid2).1,
        x.v1.on_front = true ∧ x.v2.on_front = true ∧ x.on_front = false) := by
  refine ⟨rfl, rfl, rfl, fun e => ⟨rfl, rfl, rfl⟩, ?_⟩
  intro e xy vid eid2 x hx
  obtain ⟨_, h2, h3, h4⟩ :=
    (csel_spec e.marker e.v2 ((xy.drop 1).dropLast) e.v1 vid eid2).2.2.2.2.1 x hx
  exact ⟨h2, h3, h4⟩

/-- C6 (witness): the amended statement at a concrete insertion and a
concrete sub-edge of the subdivided unit edge. -/
theorem C6_witness :
    sE2 ∈ (create_sub_edges eAB lSub 2 1).1 ∧
    sE2.v1.on_front = true ∧ sE2.v2.on_front = true ∧ sE2.on_front = false :=
  ⟨by with_unfolding_all decide,
   (C6_on_front_amended 9 vA vB 3).2.2.2.2 eAB lSub 2 1 sE2
     (by with_unfolding_all decide)⟩

/-- C7: an edge whose point sequence has fewer than 3 entries is left
untouched by a successful refine pass: its per-edge step is the keep branch
(no mark, no sub-edges, no sub-vertices, and no error beyond the normal
return), it is not in the marked list, and it is still in the front
afterwards. -/
theorem C7_degenerate_keep (fuel : ℕ) (sf : Vec2 → ℚ) (f : Front)
    (out : RefineResult) (e : Edge)
    (hmem : e ∈ f.edges)
    (hnd : (f.edges.map Edge.id).Nodup)
    (hsome : (edge_coords fuel sf e).isSome = true)
    (hkeep : subdivB fuel sf e = false)
    (h : Front.refine fuel sf f = some out) :
    (∀ vid eid, refine_edge_step fuel sf vid eid e = some (false, [], [])) ∧
    e ∈ out.front.edges ∧ e ∉ out.marked := by
  obtain ⟨t2, hloop, rfl⟩ := refine_some fuel sf f out h
  refine ⟨fun vid eid => refine_edge_step_keep fuel sf vid eid e hsome hkeep,
    ?_, ?_⟩
  · apply mem_remove_marked
    · exact (refineLoop_edges_mem fuel sf f.edges _ t2 hloop).2 e hmem
    · intro m hm heq
      rcases refineLoop_marked fuel sf f.edges _ t2 hloop m hm with h2 | h2
      · simp at h2
      · have hme : m = e := List.inj_on_of_nodup_map hnd h2.1 hmem heq
        rw [hme, hkeep] at h2
        exact absurd h2.2 (by simp)
  · intro hm
    rcases refineLoop_marked fuel sf f.edges _ t2 hloop e hm with h2 | h2
    · simp at h2
    · rw [hkeep] at h2
      exact absurd h2.2 (by simp)

/-- C7 (witness): the unit edge kept by the no-op pass under `sfTwo`. -/
theorem C7_witness :
    refine_edge_step 100 sfTwo 2 1 eAB = some (false, [], []) ∧
    eAB ∈ outNop.front.edges ∧ eAB ∉ outNop.marked :=
  have h := C7_degenerate_keep 100 sfTwo fSub outNop eAB
    (by with_unfolding_all decide) (by with_unfolding_all decide)
    (by with_unfolding_all decide) (by with_unfolding_all decide)
    (by with_unfolding_all decide)
  ⟨h.1 2 1, h.2.1, h.2.2⟩

/-- C8: every sub-edge created for an edge carries exactly that edge's
marker, including the two sub-edges touching the original endpoints. -/
theorem C8_marker_propagation (e : Edge) (xy_new : List Vec2) (vid eid : ℕ) :
    ∀ x ∈ (create_sub_edges e xy_new vid eid).1, x.marker = e.marker := by
  intro x hx
  exact ((csel_spec e.marker e.v2 ((xy_new.drop 1).dropLast) e.v1 vid eid).2.2.2.2.1
    x hx).1

/-- C8 (witness): the first sub-edge of the subdivided unit edge. -/
theorem C8_witness :
    sE1 ∈ (create_sub_edges eAB lSub 2 1).1 ∧ sE1.marker = eAB.marker :=
  ⟨by with_unfolding_all decide,
   C8_marker_propagation eAB lSub 2 1 sE1 (by with_unfolding_all decide)⟩

/-- C9: `set_base_next` and `set_base_first` are no-ops on an empty front;
on a nonempty front with distinct edge ids and a valid base at position
`i`, `set_base_next` leaves the edges alone and moves the base to position
`(i + 1) mod N` (wrapping from the last edge to the first), so `N`
successive calls return the base to the edge it started at. -/
theorem C9_base_cycling :
    (∀ f : Front, f.edges = [] → f.set_base_next = f ∧ f.set_base_first = f) ∧
    (∀ (f : Front) (i : ℕ), i < f.edges.length →
      (f.edges.map Edge.id).Nodup →
      f.base = (f.edges.get? i).map Edge.id →
      f.set_base_next.edges = f.edges ∧
      f.set_base_next.base
        = (f.edges.get? ((i + 1) % f.edges.length)).map Edge.id ∧
      Front.set_base_next^[f.edges.length] f = f) := by
  constructor
  · intro f h
    obtain ⟨es, b, nv, ne⟩ := f
    simp only at h
    subst h
    exact ⟨rfl, rfl⟩
  · intro f i hi hnd hb
    have hstep := set_base_next_step f i hi hnd hb
    refine ⟨by rw [hstep], by rw [hstep], ?_⟩
    rw [set_base_next_iterate f.edges.length f i hi hnd hb,
      Nat.add_mod_right, Nat.mod_eq_of_lt hi, ← hb]

/-- C9 (witness): the empty front and a three-edge front cycled three
times. -/
theorem C9_witness :
    (fEmpty.set_base_next = fEmpty ∧ fEmpty.set_base_first = fEmpty) ∧
    (fTri.set_base_next.edges = fTri.edges ∧
     fTri.set_base_next.base
       = (fTri.edges.get? ((0 + 1) % fTri.edges.length)).map Edge.id ∧
     Front.set_base_next^[fTri.edges.length] fTri = fTri) :=
  ⟨C9_base_cycling.1 fEmpty rfl,
   C9_base_cycling.2 fTri 0 (by decide) (by decide)
     (by with_unfolding_all decide)⟩

/-- C10: the direction flag is computed with a strict less-than, so equal
endpoint densities give `dir = false`: the march starts at `v2` along the
negated tangent and the produced sequence is reversed before being
returned. -/
theorem C10_tie_breaking (sf : Vec2 → ℚ) (e : Edge)
    (h : sf e.v1.xy = sf e.v2.xy) :
    refine_dir sf e = false ∧
    march_start e (refine_dir sf e) = e.v2 ∧
    march_tangent e (refine_dir sf e) = -e.tangent ∧
    ∀ (fuel : ℕ) (r1 r2 : ℚ) (l : List Vec2),
      subCoordsCore fuel sf e (refine_dir sf e) r1 r2 = some l →
      create_sub_vertex_coords fuel sf e (refine_dir sf e) r1 r2
        = some l.reverse := by
  have hd : refine_dir sf e = false := by simp [refine_dir, h]
  refine ⟨hd, by simp [march_start, hd], by simp [march_tangent, hd], ?_⟩
  intro fuel r1 r2 l hcore
  rw [hd] at hcore ⊢
  simp [create_sub_vertex_coords, hcore]

/-- C10 (witness): the unit edge under the constant `sfQuarter` (equal
densities at both endpoints): marching runs from `v2` and the core sequence
is returned reversed. -/
theorem C10_witness :
    refine_dir sfQuarter eAB = false ∧
    march_start eAB (refine_dir sfQuarter eAB) = eAB.v2 ∧
    march_tangent eAB (refine_dir sfQuarter eAB) = -eAB.tangent ∧
    create_sub_vertex_coords 100 sfQuarter eAB (refine_dir sfQuarter eAB)
      (1/4) (1/4) = some lSubPre.reverse :=
  have h := C10_tie_breaking sfQuarter eAB (by with_unfolding_all decide)
  ⟨h.1, h.2.1, h.2.2.1,
   h.2.2.2 100 (1/4) (1/4) lSubPre (by with_unfolding_all decide)⟩

end TQMesh
